import Mathlib

/-!
Verification of the SRTA governance/policy-decision core.

Shallow embedding of `src/srta_core/governance/governance_core.py`
(classes `Policy`, `PolicyEval`, `RTR`, `GovernanceCore`) and of the
hash-linked audit ledger `CryptographicAuditTrail` from
`src/srta/core/srta_architecture.py`.

Modelling conventions:
- Python `float` is modelled by `ℚ` (exact arithmetic, decidable).
- Python `dict` is modelled by an association list in insertion order:
  assignment to an existing key updates the value in place, a new key is
  appended at the end, exactly like CPython dicts.
- `hashlib.sha256` digests are modelled by a deterministic content
  function (`hashContent` below, and an explicit hash parameter `H` for
  the audit trail).  No claim depends on digest values, only on
  determinism, and tamper-evidence theorems state their collision-freedom
  assumption (`Function.Injective H`) explicitly.
- Python's `str()` rendering of numbers and lists is abstracted by
  deterministic rendering functions (`ratStr`, `pyListRepr`); no claim
  depends on the exact digits or quoting, only on determinism and on
  distinguishable prefixes.
- Code that can raise (`ZeroDivisionError` in
  `_distribute_responsibility`, `ValueError` in `_validate_policies`)
  is modelled with `Option` / `Except`: `none` / `.error` marks exactly
  the inputs on which the Python code raises.
-/

namespace SRTA

/-! ### Python dict primitives (association lists in insertion order) -/

/-- `m.get(k)`: first value bound to `k`, if any. -/
def dictGet {α : Type} (m : List (String × α)) (k : String) : Option α :=
  match m with
  | [] => none
  | (k₀, v₀) :: rest => if k₀ = k then some v₀ else dictGet rest k

/-- `m.get(k, d)`: lookup with default. -/
def dictGetD {α : Type} (m : List (String × α)) (k : String) (d : α) : α :=
  (dictGet m k).getD d

/-- `m[k] = v`: update in place if the key exists (keeping its position),
otherwise append the new binding, as CPython dicts do. -/
def dictSet {α : Type} (m : List (String × α)) (k : String) (v : α) :
    List (String × α) :=
  match m with
  | [] => [(k, v)]
  | (k₀, v₀) :: rest =>
      if k₀ = k then (k, v) :: rest else (k₀, v₀) :: dictSet rest k v

/-- Keys of a dict, in insertion order. -/
def dictKeys {α : Type} (m : List (String × α)) : List String :=
  m.map Prod.fst

/-- Sum of the values of a numeric dict (`sum(m.values())`). -/
def dictValuesSum (m : List (String × ℚ)) : ℚ :=
  (m.map Prod.snd).sum

/-! ### Deterministic rendering helpers (Python `str()` abstracted) -/

/-- Deterministic rendering of a rational; stands in for Python's decimal
rendering of floats.  Claims depend only on determinism. -/
def ratStr (q : ℚ) : String :=
  toString q.num ++ "/" ++ toString q.den

/-- Deterministic rendering of a list of strings; stands in for Python's
`str(list)` (the quoting of elements is abstracted away). -/
def pyListRepr (xs : List String) : String :=
  "[" ++ String.intercalate ", " xs ++ "]"

/-- First-occurrence deduplication with an accumulator of seen keys;
models iteration over a Python `set` built from a list (made
deterministic by keeping first occurrences, as `dict.fromkeys` would). -/
def dedupAux : List String → List String → List String
  | [], _ => []
  | x :: rest, seen =>
      if seen.contains x then dedupAux rest seen
      else x :: dedupAux rest (x :: seen)

/-- Deterministic model of `set(xs)` as a list. -/
def dedupFirst (xs : List String) : List String :=
  dedupAux xs []

/-- Insert into a list kept sorted by `Ord String` comparison. -/
def insertSorted (s : String) : List String → List String
  | [] => [s]
  | t :: rest =>
      if (compare s t).isLE then s :: t :: rest else t :: insertSorted s rest

/-- `sorted(xs)` on strings (lexicographic code-point order). -/
def sortStrings (xs : List String) : List String :=
  xs.foldr insertSorted []

/-! ### Data model (`governance_core.py`) -/

/-- Governance actions (`class Action(str, Enum)`). -/
inductive Action : Type
  | ALLOW
  | REVIEW
  | BLOCK
deriving DecidableEq

/-- The string value of an action (`Action.ALLOW.value` etc.). -/
def Action.value : Action → String
  | .ALLOW => "ALLOW"
  | .REVIEW => "REVIEW"
  | .BLOCK => "BLOCK"

/-- `@dataclass Policy`. -/
structure Policy where
  id : String
  owner : String
  signal : String
  operator : String
  threshold : ℚ
  severity : String
  weight : ℚ
  description : String
deriving DecidableEq

/-- `@dataclass Evidence` (metadata dict abstracted to string pairs). -/
structure Evidence where
  kind : String
  ref : String
  confidence : ℚ
  metadata : List (String × String)
deriving DecidableEq

/-- `@dataclass PolicyEval`. -/
structure PolicyEval where
  policy_id : String
  owner : String
  passed : Bool
  score : Option ℚ
  operator : String
  threshold : ℚ
  severity : String
  reason : String
  weight : ℚ
deriving DecidableEq

/-- `@dataclass RTR` — Responsibility Trace Record.  The heterogeneous
`audit` dict is flattened into its three fields; `metadata` values are
abstracted to strings. -/
structure RTR where
  decision_id : String
  timestamp : String
  request_hash : String
  output_hash : String
  signals : List (String × ℚ)
  policies : List PolicyEval
  responsibility : List (String × ℚ)
  action : Action
  reason : String
  evidences : List Evidence
  audit_evaluation_count : Nat
  audit_failed_policies : Nat
  audit_chain_hash : String
  metadata : List (String × String)
deriving DecidableEq

/-! ### Signal Evaluator (`GovernanceCore._evaluate_policy`) -/

/-- Content digest (`GovernanceCore._hash_content`): `sha256` modelled as
an ideal deterministic digest of the canonical serialization. -/
def hashContent (s : String) : String :=
  "sha256(" ++ s ++ ")"

/-- `GovernanceCore._evaluate_policy(policy, signals)`.

The source sets `passed = False, reason = "unsupported_operator:<op>"`
when the operator is unknown, but then unconditionally runs the severity
step, which overwrites both (`warn` forces `passed = True`;
`review`/`block` set `passed = condition_met` and rewrite `reason`).
`reason₀` below carries that intermediate, always-overwritten value. -/
def evaluatePolicy (policy : Policy) (signals : List (String × ℚ)) :
    PolicyEval :=
  match dictGet signals policy.signal with
  | none =>
      { policy_id := policy.id
        owner := policy.owner
        passed := false
        score := none
        operator := policy.operator
        threshold := policy.threshold
        severity := policy.severity
        reason := "signal_missing:" ++ policy.signal
        weight := policy.weight }
  | some signal_value =>
      let supported : Bool :=
        policy.operator == "<" || policy.operator == ">" ||
        policy.operator == "==" || policy.operator == "<=" ||
        policy.operator == ">="
      let condition_met : Bool :=
        if policy.operator == "<" then decide (signal_value < policy.threshold)
        else if policy.operator == ">" then decide (policy.threshold < signal_value)
        else if policy.operator == "==" then decide (|signal_value - policy.threshold| < 1/1000)
        else if policy.operator == "<=" then decide (signal_value ≤ policy.threshold)
        else if policy.operator == ">=" then decide (policy.threshold ≤ signal_value)
        else false
      let reason₀ : String :=
        if supported then "" else "unsupported_operator:" ++ policy.operator
      let fmt : String :=
        ratStr signal_value ++ "_" ++ policy.operator ++ "_" ++
          ratStr policy.threshold
      if policy.severity == "warn" then
        { policy_id := policy.id
          owner := policy.owner
          passed := true
          score := some signal_value
          operator := policy.operator
          threshold := policy.threshold
          severity := policy.severity
          reason :=
            if !condition_met then "warning_condition_not_met:" ++ fmt
            else reason₀
          weight := policy.weight }
      else
        { policy_id := policy.id
          owner := policy.owner
          passed := condition_met
          score := some signal_value
          operator := policy.operator
          threshold := policy.threshold
          severity := policy.severity
          reason :=
            if !condition_met then "condition_failed:" ++ fmt
            else reason₀
          weight := policy.weight }

/-! ### Decision Synthesizer (`GovernanceCore._determine_action`) -/

/-- `GovernanceCore._determine_action(evaluations)`. -/
def determineAction (evaluations : List PolicyEval) : Action × String :=
  let blocking_failures :=
    evaluations.filter (fun e => !e.passed && e.severity == "block")
  let review_failures :=
    evaluations.filter (fun e => !e.passed && e.severity == "review")
  let warnings :=
    evaluations.filter (fun e => e.severity == "warn" && e.reason != "")
  if !blocking_failures.isEmpty then
    (Action.BLOCK,
      "blocked_by_policies:" ++
        pyListRepr (blocking_failures.map (fun e => e.policy_id)) ++
        "_owners:" ++
        pyListRepr (sortStrings
          (dedupFirst (blocking_failures.map (fun e => e.owner)))))
  else if !review_failures.isEmpty then
    (Action.REVIEW,
      "review_required_policies:" ++
        pyListRepr (review_failures.map (fun e => e.policy_id)) ++
        "_owners:" ++
        pyListRepr (sortStrings
          (dedupFirst (review_failures.map (fun e => e.owner)))))
  else if !warnings.isEmpty then
    (Action.ALLOW,
      "allowed_with_warnings:" ++
        pyListRepr (warnings.map (fun e => e.policy_id)))
  else
    (Action.ALLOW, "all_policies_passed")

/-! ### Responsibility Distributor (`_distribute_responsibility`) -/

/-- Severity multiplier dict with default `1.0`. -/
def sevMult (severity : String) : ℚ :=
  if severity = "block" then 3
  else if severity = "review" then 2
  else if severity = "warn" then 1
  else 1

/-- One iteration of the accumulation loop in
`_distribute_responsibility`. -/
def respStep (acc : List (String × ℚ)) (e : PolicyEval) :
    List (String × ℚ) :=
  if e.reason ≠ "" then
    dictSet acc e.owner (dictGetD acc e.owner 0 + e.weight * sevMult e.severity)
  else acc

/-- `GovernanceCore._distribute_responsibility(evaluations)`.
Returns `none` exactly where the Python code raises `ZeroDivisionError`:
a non-empty score dict whose total is `0.0`. -/
def distributeResponsibility (evaluations : List PolicyEval) :
    Option (List (String × ℚ)) :=
  let responsibility_scores := evaluations.foldl respStep []
  if responsibility_scores.isEmpty then some [("Operations", 1)]
  else
    let total_score := dictValuesSum responsibility_scores
    if total_score = 0 then none
    else some (responsibility_scores.map (fun kv => (kv.1, kv.2 / total_score)))

/-! ### Policy Store (`GovernanceCore.__init__` / `_validate_policies`) -/

/-- The dict comprehension `{p.id: p for p in policies}`: for each id the
key keeps the position of its first occurrence while the value is the last
policy assigned to it; `.values()` yields this list. -/
def setById : List Policy → Policy → List Policy
  | [], p => [p]
  | q :: rest, p => if q.id = p.id then p :: rest else q :: setById rest p

/-- `list({p.id: p for p in policies}.values())`. -/
def dedupById (policies : List Policy) : List Policy :=
  policies.foldl setById []

/-- The constructed engine state.  `policies` is the id-indexed store in
dict order (`self.policies.values()`). -/
structure GovernanceCore where
  policies : List Policy
  actors : List String
  evaluation_history : List RTR
deriving DecidableEq

/-- `GovernanceCore(policies, actors)`: builds the id-indexed store, then
`_validate_policies` raises `ValueError` (the spec's `ConfigurationError`)
when some stored policy's owner is outside the actor set. -/
def mkGovernanceCore (policies : List Policy) (actors : List String) :
    Except String GovernanceCore :=
  let store := dedupById policies
  let unknown_owners :=
    (store.map (fun p => p.owner)).filter (fun o => !actors.contains o)
  if unknown_owners.isEmpty then
    Except.ok { policies := store, actors := actors, evaluation_history := [] }
  else
    Except.error ("Unknown policy owners: " ++ pyListRepr (dedupFirst unknown_owners))

/-! ### Record Builder (`GovernanceCore.evaluate`) -/

/-- `GovernanceCore.evaluate(prompt, output, signals, evidences,
decision_id, metadata)`.  `timestamp` is the value of
`datetime.now(timezone.utc).isoformat()`, passed explicitly since it is an
environment input.  Returns `none` exactly where the Python call raises
(`ZeroDivisionError` propagating out of `_distribute_responsibility`).
The record is also appended to `evaluation_history` by the source; history
evolution is modelled by `recordDecision` below. -/
def GovernanceCore.evaluate (core : GovernanceCore) (prompt output : String)
    (signals : List (String × ℚ)) (evidences : List Evidence)
    (decisionId : Option String) (metadata : List (String × String))
    (timestamp : String) : Option RTR :=
  let request_hash := hashContent ("prompt=" ++ prompt)
  let output_hash := hashContent ("output=" ++ output)
  let did := decisionId.getD (output_hash.take 16)
  let evaluations := core.policies.map (fun p => evaluatePolicy p signals)
  let ar := determineAction evaluations
  match distributeResponsibility evaluations with
  | none => none
  | some responsibility =>
      some
        { decision_id := did
          timestamp := timestamp
          request_hash := request_hash
          output_hash := output_hash
          signals := signals
          policies := evaluations
          responsibility := responsibility
          action := ar.1
          reason := ar.2
          evidences := evidences
          audit_evaluation_count := evaluations.length
          audit_failed_policies :=
            (evaluations.filter (fun e => !e.passed)).length
          audit_chain_hash :=
            hashContent ("request=" ++ request_hash ++ ";output=" ++
              output_hash ++ ";timestamp=" ++ timestamp)
          metadata := metadata }

/-- `self.evaluation_history.append(rtr)`. -/
def GovernanceCore.recordDecision (core : GovernanceCore) (rtr : RTR) :
    GovernanceCore :=
  { core with evaluation_history := core.evaluation_history ++ [rtr] }

/-! ### Record Validator (`RTR.validate`) -/

/-- `RTR.validate()`.  Issues are accumulated in source order: required
fields, responsibility distribution, hash format, policy consistency.
The `action` field is a `str`-valued enum and never compares equal to
`None`, `""`, `{}` or `[]`, so it contributes no required-field issue. -/
def RTR.validate (r : RTR) : Bool × List String :=
  let reqIssues : List String :=
    (if r.decision_id = "" then ["missing_required_field:decision_id"] else []) ++
    (if r.timestamp = "" then ["missing_required_field:timestamp"] else []) ++
    (if r.request_hash = "" then ["missing_required_field:request_hash"] else []) ++
    (if r.output_hash = "" then ["missing_required_field:output_hash"] else []) ++
    (if r.signals = [] then ["missing_required_field:signals"] else []) ++
    (if r.policies = [] then ["missing_required_field:policies"] else []) ++
    (if r.responsibility = [] then ["missing_required_field:responsibility"] else [])
  let respIssues : List String :=
    if r.responsibility ≠ [] then
      let total := dictValuesSum r.responsibility
      (if ¬ (99/100 ≤ total ∧ total ≤ 101/100) then
        ["responsibility_sum_invalid:" ++ ratStr total] else []) ++
      (let negative_resp :=
        (r.responsibility.filter (fun kv => kv.2 < 0)).map Prod.fst
       if negative_resp ≠ [] then
        ["negative_responsibility:" ++ pyListRepr negative_resp] else [])
    else []
  let hashIssues : List String :=
    if r.request_hash.length < 16 ∨ r.output_hash.length < 16 then
      ["invalid_hash_format"]
    else []
  let polIssues : List String :=
    if r.policies ≠ [] then
      let policy_owners := dedupFirst (r.policies.map (fun e => e.owner))
      let resp_owners := dictKeys r.responsibility
      let missing_owners := policy_owners.filter (fun o => !resp_owners.contains o)
      if missing_owners ≠ [] then
        ["missing_responsibility_for_owners:" ++ pyListRepr missing_owners]
      else []
    else []
  let issues := reqIssues ++ respIssues ++ hashIssues ++ polIssues
  (issues.isEmpty, issues)

/-! ### Audit summary (`GovernanceCore.get_audit_summary`) -/

/-- The value of `get_audit_summary` (a dict with four fixed keys). -/
structure AuditSummary where
  total_decisions : Nat
  action_distribution : List (String × Nat)
  responsibility_distribution : List (String × ℚ)
  policies_evaluated : Nat
deriving DecidableEq

/-- The aggregation loop of `get_audit_summary` over a record list. -/
def summarize (rtrs : List RTR) (policyCount : Nat) : AuditSummary :=
  let action_counts := rtrs.foldl
    (fun acc r => dictSet acc r.action.value (dictGetD acc r.action.value 0 + 1)) []
  let responsibility_totals := rtrs.foldl
    (fun acc r => r.responsibility.foldl
      (fun acc₂ kv => dictSet acc₂ kv.1 (dictGetD acc₂ kv.1 0 + kv.2)) acc) []
  { total_decisions := rtrs.length
    action_distribution := action_counts
    responsibility_distribution := responsibility_totals
    policies_evaluated := policyCount }

/-- Python's slice `l[-limit:]` for a non-negative `limit`: for
`limit = 0` it is `l[0:]`, the WHOLE list; otherwise the last
`min(limit, len(l))` elements. -/
def sliceLastPy {α : Type} (l : List α) (limit : Nat) : List α :=
  if limit = 0 then l else l.drop (l.length - limit)

/-- The most recent `n` elements (`drop (len - n)`), the spec's reading of
"the most recent `limit` records". -/
def lastN {α : Type} (l : List α) (n : Nat) : List α :=
  l.drop (l.length - n)

/-- `GovernanceCore.get_audit_summary(limit)`. -/
def GovernanceCore.get_audit_summary (core : GovernanceCore) (limit : Nat) :
    AuditSummary :=
  let recent_rtrs :=
    if core.evaluation_history.isEmpty then []
    else sliceLastPy core.evaluation_history limit
  summarize recent_rtrs core.policies.length

/-! ### Audit Chain (`CryptographicAuditTrail`, `srta_architecture.py`)

Records are represented by their canonical serialization
(`json.dumps(record, sort_keys=True, default=str)`), a character list,
since the chain logic depends on a record only through that string.  The
digest `H` (`hashlib.sha256(...).hexdigest()`) is an explicit parameter:
theorems that need collision-freedom assume `Function.Injective H`. -/

structure AuditTrail where
  audit_records : List (List Char)
  hash_chain : List (List Char)
deriving DecidableEq

/-- `CryptographicAuditTrail()`. -/
def AuditTrail.empty : AuditTrail :=
  { audit_records := [], hash_chain := [] }

/-- `_generate_hash(record)`: serialize, concatenate the previous chain
hash when one exists, digest. -/
def generateHash (H : List Char → List Char) (t : AuditTrail)
    (record : List Char) : List Char :=
  if t.hash_chain.isEmpty then H record
  else H (record ++ t.hash_chain.getD (t.hash_chain.length - 1) [])

/-- `add_record(record)`: append the (already serialized, metadata-bearing)
record and its chained hash. -/
def AuditTrail.add_record (H : List Char → List Char) (t : AuditTrail)
    (record : List Char) : AuditTrail :=
  { audit_records := t.audit_records ++ [record]
    hash_chain := t.hash_chain ++ [generateHash H t record] }

/-- `add_record` over a whole list of records, in order. -/
def AuditTrail.addRecords (H : List Char → List Char) (t : AuditTrail)
    (records : List (List Char)) : AuditTrail :=
  records.foldl (fun acc r => acc.add_record H r) t

/-- `_generate_hash_at_position(record, position)`: recompute the hash
from the stored record and the STORED previous chain hash. -/
def generateHashAtPosition (H : List Char → List Char) (t : AuditTrail)
    (record : List Char) (position : Nat) : List Char :=
  if position > 0 then H (record ++ t.hash_chain.getD (position - 1) [])
  else H record

/-- Whether the chain entry at index `i` passes the `verify_integrity`
check: the recomputed hash equals the stored one. -/
def AuditTrail.entryValid (H : List Char → List Char) (t : AuditTrail)
    (i : Nat) : Bool :=
  generateHashAtPosition H t (t.audit_records.getD i []) i ==
    t.hash_chain.getD i []

/-- `verify_integrity()`: every stored record's recomputed hash matches
the stored chain hash (trivially true for the empty trail). -/
def AuditTrail.verify_integrity (H : List Char → List Char)
    (t : AuditTrail) : Bool :=
  (List.range t.audit_records.length).all (fun i => t.entryValid H i)

/-- In-place mutation of the stored record at index `i`
(`trail.audit_records[i] = record`), leaving the hash chain untouched. -/
def AuditTrail.mutate (t : AuditTrail) (i : Nat) (record : List Char) :
    AuditTrail :=
  { t with audit_records := t.audit_records.set i record }

/-! ## Supporting lemmas -/

/-- `l.contains s` agrees with list membership. -/
lemma contains_iff_mem (l : List String) (s : String) :
    l.contains s = true ↔ s ∈ l := by
  simp [List.contains, List.elem_iff]

/-- `setById` appends when the id is fresh. -/
lemma setById_not_mem (acc : List Policy) (p : Policy)
    (h : ∀ q ∈ acc, q.id ≠ p.id) : setById acc p = acc ++ [p] := by
  induction acc with
  | nil => rfl
  | cons q rest ih =>
      simp only [setById]
      rw [if_neg (h q (List.mem_cons_self q rest))]
      simp only [List.cons_append, List.cons.injEq, true_and]
      exact ih (fun r hr => h r (List.mem_cons_of_mem q hr))

/-- Folding `setById` over policies with globally distinct ids appends. -/
lemma foldl_setById_nodup (policies : List Policy) :
    ∀ acc : List Policy,
      (((acc ++ policies).map (fun p => p.id)).Nodup) →
      policies.foldl setById acc = acc ++ policies := by
  induction policies with
  | nil => intro acc _; simp
  | cons p rest ih =>
      intro acc h
      have hsplit := h
      rw [List.map_append, List.nodup_append] at hsplit
      have hnotin : ∀ q ∈ acc, q.id ≠ p.id := by
        intro q hq hqid
        exact hsplit.2.2 (List.mem_map_of_mem _ hq)
          (by rw [hqid]; exact List.mem_map_of_mem _ (List.mem_cons_self p rest))
      rw [List.foldl_cons, setById_not_mem acc p hnotin]
      have h₂ : (((acc ++ [p]) ++ rest).map (fun p => p.id)).Nodup := by
        simpa [List.append_assoc] using h
      simpa [List.append_assoc] using ih (acc ++ [p]) h₂

/-- With pairwise distinct ids the id-indexed store is the input list. -/
lemma dedupById_of_nodup (policies : List Policy)
    (h : (policies.map (fun p => p.id)).Nodup) :
    dedupById policies = policies := by
  simpa using foldl_setById_nodup policies [] (by simpa using h)

/-! ## C2 — missing signal is fail-closed -/

/-- C2: for every policy and every signal map lacking the policy's signal
key, the evaluation has `passed = false` and
`reason = "signal_missing:<signal>"`, regardless of the declared severity
(including `warn`). -/
theorem evaluatePolicy_missing_signal_fail_closed (policy : Policy)
    (signals : List (String × ℚ))
    (h : dictGet signals policy.signal = none) :
    (evaluatePolicy policy signals).passed = false ∧
    (evaluatePolicy policy signals).reason =
      "signal_missing:" ++ policy.signal := by
  unfold evaluatePolicy
  rw [h]
  exact ⟨rfl, rfl⟩

def pC2 : Policy :=
  { id := "m", owner := "Safety", signal := "s", operator := ">",
    threshold := 1/2, severity := "warn", weight := 1, description := "" }

/-- Witness for C2 at a concrete warn-severity policy and empty signals. -/
theorem evaluatePolicy_missing_signal_fail_closed_witness :
    (evaluatePolicy pC2 []).passed = false ∧
    (evaluatePolicy pC2 []).reason = "signal_missing:" ++ pC2.signal :=
  evaluatePolicy_missing_signal_fail_closed pC2 [] rfl

/-! ## C6 — unsupported operator (code bug) -/

def pC6warn : Policy :=
  { id := "ne_warn", owner := "Safety", signal := "s", operator := "!=",
    threshold := 1/2, severity := "warn", weight := 1, description := "" }

def pC6block : Policy :=
  { pC6warn with id := "ne_block", severity := "block" }

def sigC6 : List (String × ℚ) := [("s", 3/10)]

unseal Rat.add Rat.mul Rat.sub Rat.inv in
/-- C6 (code bug): the claim says an unsupported operator yields
`passed = false` and `reason = "unsupported_operator:<op>"` for every
severity.  The code assigns that reason but the severity step then
unconditionally overwrites it: a `warn` policy comes back
`passed = true` with a `warning_condition_not_met` reason, and a `block`
policy comes back `passed = false` with a `condition_failed` reason. -/
theorem unsupported_operator_overwritten_by_severity_step :
    (evaluatePolicy pC6warn sigC6).passed = true ∧
    (evaluatePolicy pC6warn sigC6).reason ≠ "unsupported_operator:!=" ∧
    (evaluatePolicy pC6block sigC6).passed = false ∧
    (evaluatePolicy pC6block sigC6).reason ≠ "unsupported_operator:!=" ∧
    (evaluatePolicy pC6warn sigC6).reason =
      "warning_condition_not_met:" ++ ratStr (3/10) ++ "_!=_" ++ ratStr (1/2) ∧
    (evaluatePolicy pC6block sigC6).reason =
      "condition_failed:" ++ ratStr (3/10) ++ "_!=_" ++ ratStr (1/2) := by
  refine ⟨by decide, by decide, by decide, by decide, by decide, by decide⟩

/-! ## C7 — evaluate can raise on zero accumulated weight (code bug) -/

def pC7 : Policy :=
  { id := "b0", owner := "Safety", signal := "s", operator := ">",
    threshold := 7/10, severity := "block", weight := 0, description := "" }

def coreC7 : GovernanceCore :=
  { policies := [pC7], actors := ["Safety", "Operations"],
    evaluation_history := [] }

unseal Rat.add Rat.mul Rat.sub Rat.inv in
/-- C7 (code bug): with a single block policy of weight `0` and an empty
signal map, the only evaluation is flagged with weight `0`, the score
total is `0.0`, and `_distribute_responsibility` divides by it —
`evaluate` raises `ZeroDivisionError` (modelled as `none`) instead of
returning a complete record. -/
theorem evaluate_raises_on_zero_total_weight :
    (∀ p ∈ coreC7.policies, 0 ≤ p.weight) ∧
    coreC7.evaluate "hi" "out" [] [] none [] "2026-01-01T00:00:00" =
      none := by
  exact ⟨by decide, by decide⟩

/-! ## C5 — construction validation and duplicate policy ids -/

def pC5bad : Policy :=
  { id := "dup", owner := "BadGuy", signal := "s", operator := ">",
    threshold := 1/2, severity := "block", weight := 1, description := "" }

def pC5good : Policy := { pC5bad with owner := "Safety" }

/-- C5 counterexample: two policies share the id `"dup"`; the id-indexed
store keeps only the later one, so construction succeeds even though the
earlier policy's owner `"BadGuy"` is outside the actor set — refuting
"construction fails iff some policy's owner is not a member". -/
theorem construction_succeeds_despite_unknown_owner :
    (mkGovernanceCore [pC5bad, pC5good] ["Safety"]).isOk = true ∧
    pC5bad ∈ [pC5bad, pC5good] ∧
    pC5bad.owner ∉ (["Safety"] : List String) := by
  exact ⟨by decide, List.mem_cons_self pC5bad [pC5good], by decide⟩

/-- C5 amended: construction fails iff some policy of the id-indexed
store (each id's last occurrence) has an owner outside the actor set;
for policy lists with pairwise distinct ids this is exactly "some
policy's owner is not a member of the actor set". -/
theorem construction_fails_iff_stored_owner_unknown
    (policies : List Policy) (actors : List String) :
    ((mkGovernanceCore policies actors).isOk = false ↔
      ∃ p ∈ dedupById policies, p.owner ∉ actors) ∧
    ((policies.map (fun p => p.id)).Nodup →
      ((mkGovernanceCore policies actors).isOk = false ↔
        ∃ p ∈ policies, p.owner ∉ actors)) := by
  have main : (mkGovernanceCore policies actors).isOk = false ↔
      ∃ p ∈ dedupById policies, p.owner ∉ actors := by
    by_cases hb :
        ((dedupById policies).map (fun p => p.owner)).filter
          (fun o => !actors.contains o) = []
    · have hok : (mkGovernanceCore policies actors).isOk = true := by
        simp only [mkGovernanceCore, hb]
        rfl
      rw [hok]
      simp only [Bool.true_eq_false, false_iff]
      rw [List.filter_eq_nil_iff] at hb
      rintro ⟨p, hp, hno⟩
      have hcontains := hb p.owner (List.mem_map_of_mem _ hp)
      have hcontains₂ : actors.contains p.owner = true := by
        cases hcc : actors.contains p.owner
        · exact absurd (by rw [hcc]; rfl) hcontains
        · rfl
      exact hno ((contains_iff_mem actors p.owner).mp hcontains₂)
    · have hok : (mkGovernanceCore policies actors).isOk = false := by
        simp only [mkGovernanceCore, List.isEmpty_eq_false.mpr hb]
        rfl
      rw [hok]
      simp only [true_iff]
      rcases List.exists_mem_of_ne_nil _ hb with ⟨o, ho⟩
      rcases List.mem_filter.mp ho with ⟨hmem, hfil⟩
      rcases List.mem_map.mp hmem with ⟨p, hp, rfl⟩
      refine ⟨p, hp, fun hc => ?_⟩
      rw [(contains_iff_mem actors p.owner).mpr hc] at hfil
      cases hfil
  refine ⟨main, fun h => ?_⟩
  rw [main, dedupById_of_nodup policies h]

/-- Witness for the amended C5 at a concrete failing configuration. -/
theorem construction_fails_iff_stored_owner_unknown_witness :
    (mkGovernanceCore [pC5bad] ["Safety"]).isOk = false :=
  (construction_fails_iff_stored_owner_unknown [pC5bad] ["Safety"]).1.mpr
    ⟨pC5bad, List.mem_cons_self pC5bad [], by decide⟩

/-! ## C9 — audit summary window -/

def coreC9 : GovernanceCore :=
  { policies := [], actors := ["Operations"], evaluation_history := [] }

def rtrFallback : RTR :=
  { decision_id := "", timestamp := "", request_hash := "",
    output_hash := "", signals := [], policies := [], responsibility := [],
    action := Action.ALLOW, reason := "", evidences := [],
    audit_evaluation_count := 0, audit_failed_policies := 0,
    audit_chain_hash := "", metadata := [] }

def rtrC9 : RTR :=
  (coreC9.evaluate "p" "o" [("s", 1)] [] (some "d0") [] "t0").getD rtrFallback

unseal Rat.add Rat.mul Rat.sub Rat.inv in
/-- C9 counterexample: with a single produced record in the history,
`get_audit_summary(0)` reports `total_decisions = 1`, not
`min 0 1 = 0`: Python's `history[-0:]` slice is the whole history, so
`limit = 0` does not summarize zero records. -/
theorem audit_summary_limit_zero_full_history :
    coreC9.evaluate "p" "o" [("s", 1)] [] (some "d0") [] "t0" = some rtrC9 ∧
    ((coreC9.recordDecision rtrC9).get_audit_summary 0).total_decisions = 1 ∧
    (1 : Nat) ≠ min 0 1 := by
  refine ⟨by decide, by decide, by decide⟩

/-- C9 amended: for `limit ≥ 1`, `get_audit_summary(limit)` aggregates
exactly the most recent `min(limit, len(history))` records and its
`total_decisions` equals that minimum; for `limit = 0` it aggregates the
ENTIRE history (Python slice `history[-0:]`), not zero records. -/
theorem audit_summary_recent_records (core : GovernanceCore) (limit : Nat) :
    (1 ≤ limit →
      core.get_audit_summary limit =
        summarize (lastN core.evaluation_history limit)
          core.policies.length ∧
      (lastN core.evaluation_history limit).length =
        min limit core.evaluation_history.length) ∧
    core.get_audit_summary 0 =
      summarize core.evaluation_history core.policies.length := by
  constructor
  · intro hlim
    constructor
    · unfold GovernanceCore.get_audit_summary sliceLastPy lastN
      by_cases he : core.evaluation_history.isEmpty
      · rw [List.isEmpty_iff] at he
        simp [he]
      · have hne : limit ≠ 0 := by omega
        simp [he, hne]
    · unfold lastN
      rw [List.length_drop]
      omega
  · unfold GovernanceCore.get_audit_summary sliceLastPy
    by_cases he : core.evaluation_history.isEmpty
    · rw [List.isEmpty_iff] at he
      simp [he]
    · simp [he]

unseal Rat.add Rat.mul Rat.sub Rat.inv in
/-- Witness for the amended C9 at `limit = 1` on a one-record history. -/
theorem audit_summary_recent_records_witness :
    (coreC9.recordDecision rtrC9).get_audit_summary 1 =
      summarize (lastN (coreC9.recordDecision rtrC9).evaluation_history 1)
        (coreC9.recordDecision rtrC9).policies.length ∧
    (lastN (coreC9.recordDecision rtrC9).evaluation_history 1).length =
      min 1 (coreC9.recordDecision rtrC9).evaluation_history.length :=
  (audit_summary_recent_records (coreC9.recordDecision rtrC9) 1).1
    (by decide)

/-! ## C8 — determinism of action and reason -/

/-- C8: two `evaluate` calls on cores configured with the same policy
set, given identical `(prompt, output, signals, evidences)`, produce the
same `action` and the same `reason`, whatever their timestamps, decision
ids, metadata, actor sets or histories. -/
theorem evaluate_deterministic (c₁ c₂ : GovernanceCore)
    (prompt output : String) (signals : List (String × ℚ))
    (evidences : List Evidence) (id₁ id₂ : Option String)
    (md₁ md₂ : List (String × String)) (t₁ t₂ : String)
    (h : c₁.policies = c₂.policies) :
    Option.map RTR.action
        (c₁.evaluate prompt output signals evidences id₁ md₁ t₁) =
      Option.map RTR.action
        (c₂.evaluate prompt output signals evidences id₂ md₂ t₂) ∧
    Option.map RTR.reason
        (c₁.evaluate prompt output signals evidences id₁ md₁ t₁) =
      Option.map RTR.reason
        (c₂.evaluate prompt output signals evidences id₂ md₂ t₂) := by
  simp only [GovernanceCore.evaluate, h]
  cases distributeResponsibility
      (c₂.policies.map (fun p => evaluatePolicy p signals)) <;>
    simp

def coreC8a : GovernanceCore :=
  { policies := [pC2], actors := ["Safety"], evaluation_history := [] }

def coreC8b : GovernanceCore :=
  { policies := [pC2], actors := ["Safety", "Ethics"],
    evaluation_history := [rtrFallback] }

/-- Witness for C8: same policies, different actors, histories,
timestamps and decision ids. -/
theorem evaluate_deterministic_witness :
    Option.map RTR.action
        (coreC8a.evaluate "p" "o" [("s", 1)] [] none [] "t1") =
      Option.map RTR.action
        (coreC8b.evaluate "p" "o" [("s", 1)] [] (some "z") [] "t2") ∧
    Option.map RTR.reason
        (coreC8a.evaluate "p" "o" [("s", 1)] [] none [] "t1") =
      Option.map RTR.reason
        (coreC8b.evaluate "p" "o" [("s", 1)] [] (some "z") [] "t2") :=
  evaluate_deterministic coreC8a coreC8b "p" "o" [("s", 1)] [] none
    (some "z") [] [] "t1" "t2" rfl

/-! ## C1 — severity precedence of the synthesized action -/

/-- A non-empty boolean filter over the evaluations yields a member
satisfying the predicate, and conversely. -/
lemma filter_isEmpty_false_iff (p : PolicyEval → Bool)
    (l : List PolicyEval) :
    (l.filter p).isEmpty = false ↔ ∃ e ∈ l, p e = true := by
  rw [List.isEmpty_eq_false]
  constructor
  · intro hne
    rcases List.exists_mem_of_ne_nil _ hne with ⟨e, he⟩
    exact ⟨e, (List.mem_filter.mp he).1, (List.mem_filter.mp he).2⟩
  · rintro ⟨e, he, hpe⟩ hnil
    have hmem : e ∈ l.filter p := List.mem_filter.mpr ⟨he, hpe⟩
    rw [hnil] at hmem
    cases hmem

/-- An empty boolean filter over the evaluations means no member
satisfies the predicate. -/
lemma filter_isEmpty_true_iff (p : PolicyEval → Bool)
    (l : List PolicyEval) :
    (l.filter p).isEmpty = true ↔ ∀ e ∈ l, p e = false := by
  rw [List.isEmpty_iff, List.filter_eq_nil_iff]
  constructor
  · intro h e he
    have hne := h e he
    cases hpe : p e
    · rfl
    · exact absurd hpe hne
  · intro h e he
    rw [h e he]
    exact Bool.false_ne_true

/-- The block-failure boolean test, in propositional form. -/
lemma block_pred_iff (e : PolicyEval) :
    ((!e.passed && e.severity == "block") = true) ↔
      (e.severity = "block" ∧ e.passed = false) := by
  cases hp : e.passed <;> simp

/-- The review-failure boolean test, in propositional form. -/
lemma review_pred_iff (e : PolicyEval) :
    ((!e.passed && e.severity == "review") = true) ↔
      (e.severity = "review" ∧ e.passed = false) := by
  cases hp : e.passed <;> simp

/-- The warning boolean test, in propositional form. -/
lemma warn_pred_iff (e : PolicyEval) :
    ((e.severity == "warn" && e.reason != "") = true) ↔
      (e.severity = "warn" ∧ e.reason ≠ "") := by
  simp

/-- C1: the synthesized action is `BLOCK` iff some block-severity
evaluation failed; otherwise it is `REVIEW` iff some review-severity
evaluation failed; otherwise it is `ALLOW`, and when additionally no
warn-severity evaluation carries a non-empty reason, the reason is
exactly `"all_policies_passed"`. -/
theorem determine_action_severity_precedence
    (evaluations : List PolicyEval) :
    ((determineAction evaluations).1 = Action.BLOCK ↔
      ∃ e ∈ evaluations, e.severity = "block" ∧ e.passed = false) ∧
    ((determineAction evaluations).1 = Action.REVIEW ↔
      ((¬ ∃ e ∈ evaluations, e.severity = "block" ∧ e.passed = false) ∧
        ∃ e ∈ evaluations, e.severity = "review" ∧ e.passed = false)) ∧
    ((¬ ∃ e ∈ evaluations,
        (e.severity = "block" ∨ e.severity = "review") ∧ e.passed = false) →
      (determineAction evaluations).1 = Action.ALLOW) ∧
    (((¬ ∃ e ∈ evaluations,
          (e.severity = "block" ∨ e.severity = "review") ∧
            e.passed = false) ∧
        ∀ e ∈ evaluations, e.severity = "warn" → e.reason = "") →
      determineAction evaluations = (Action.ALLOW, "all_policies_passed")) := by
  cases hBe : (evaluations.filter
      (fun e => !e.passed && e.severity == "block")).isEmpty
  · -- some block-severity evaluation failed
    have hexB : ∃ e ∈ evaluations, e.severity = "block" ∧ e.passed = false := by
      rcases (filter_isEmpty_false_iff _ _).mp hBe with ⟨e, he, hpe⟩
      exact ⟨e, he, (block_pred_iff e).mp hpe⟩
    have hact : (determineAction evaluations).1 = Action.BLOCK := by
      simp [determineAction, hBe]
    have hcontra : ∃ e ∈ evaluations,
        (e.severity = "block" ∨ e.severity = "review") ∧ e.passed = false := by
      rcases hexB with ⟨e, he, hs, hp⟩
      exact ⟨e, he, Or.inl hs, hp⟩
    refine ⟨by simp [hact, hexB], ?_, fun hn => absurd hcontra hn,
      fun hyp => absurd hcontra hyp.1⟩
    rw [hact]
    constructor
    · intro hc; cases hc
    · rintro ⟨hnB, _⟩; exact absurd hexB hnB
  · -- no block-severity failure
    have hnB : ¬ ∃ e ∈ evaluations, e.severity = "block" ∧ e.passed = false := by
      rintro ⟨e, he, hs, hp⟩
      have := (filter_isEmpty_true_iff _ _).mp hBe e he
      rw [(block_pred_iff e).mpr ⟨hs, hp⟩] at this
      cases this
    cases hRe : (evaluations.filter
        (fun e => !e.passed && e.severity == "review")).isEmpty
    · -- some review-severity evaluation failed
      have hexR : ∃ e ∈ evaluations,
          e.severity = "review" ∧ e.passed = false := by
        rcases (filter_isEmpty_false_iff _ _).mp hRe with ⟨e, he, hpe⟩
        exact ⟨e, he, (review_pred_iff e).mp hpe⟩
      have hact : (determineAction evaluations).1 = Action.REVIEW := by
        simp [determineAction, hBe, hRe]
      have hcontra : ∃ e ∈ evaluations,
          (e.severity = "block" ∨ e.severity = "review") ∧
            e.passed = false := by
        rcases hexR with ⟨e, he, hs, hp⟩
        exact ⟨e, he, Or.inr hs, hp⟩
      refine ⟨?_, by simp [hact, hnB, hexR], fun hn => absurd hcontra hn,
        fun hyp => absurd hcontra hyp.1⟩
      rw [hact]
      constructor
      · intro hc; cases hc
      · intro hex; exact absurd hex hnB
    · -- neither block nor review failures: ALLOW
      have hnR : ¬ ∃ e ∈ evaluations,
          e.severity = "review" ∧ e.passed = false := by
        rintro ⟨e, he, hs, hp⟩
        have := (filter_isEmpty_true_iff _ _).mp hRe e he
        rw [(review_pred_iff e).mpr ⟨hs, hp⟩] at this
        cases this
      have hact : (determineAction evaluations).1 = Action.ALLOW := by
        cases hWe : (evaluations.filter
            (fun e => e.severity == "warn" && e.reason != "")).isEmpty <;>
          simp [determineAction, hBe, hRe, hWe]
      refine ⟨?_, ?_, fun _ => hact, ?_⟩
      · rw [hact]
        constructor
        · intro hc; cases hc
        · intro hex; exact absurd hex hnB
      · rw [hact]
        constructor
        · intro hc; cases hc
        · rintro ⟨_, hex⟩; exact absurd hex hnR
      · rintro ⟨_, hwarn⟩
        cases hWe : (evaluations.filter
            (fun e => e.severity == "warn" && e.reason != "")).isEmpty
        · rcases (filter_isEmpty_false_iff _ _).mp hWe with ⟨e, he, hpe⟩
          rcases (warn_pred_iff e).mp hpe with ⟨hs, hr⟩
          exact absurd (hwarn e he hs) hr
        · simp [determineAction, hBe, hRe, hWe]

def eC1 : PolicyEval :=
  { policy_id := "w", owner := "Safety", passed := true, score := none,
    operator := ">", threshold := 0, severity := "warn", reason := "",
    weight := 1 }

/-- Witness for C1 on a single clean warn evaluation: all-pass reason. -/
theorem determine_action_severity_precedence_witness :
    determineAction [eC1] = (Action.ALLOW, "all_policies_passed") :=
  (determine_action_severity_precedence [eC1]).2.2.2
    ⟨by decide, by decide⟩

/-! ## C4 — audit chain integrity and tamper evidence -/

/-- Well-formedness of a trail as `add_record` builds it: the chain has
one hash per record and each stored hash is the recomputation from the
stored record and the stored previous hash. -/
def chainOk (H : List Char → List Char) (t : AuditTrail) : Prop :=
  t.hash_chain.length = t.audit_records.length ∧
  ∀ i, i < t.audit_records.length →
    t.hash_chain.getD i [] =
      generateHashAtPosition H t (t.audit_records.getD i []) i

/-- `getD` at the appended position. -/
lemma getD_concat_length {α : Type} (l : List α) (a d : α) :
    (l ++ [a]).getD l.length d = a := by
  rw [List.getD_eq_getElem?_getD, List.getElem?_concat_length]
  rfl

/-- `getD` left of an append. -/
lemma getD_append_lt {α : Type} (l l' : List α) (d : α) (n : Nat)
    (h : n < l.length) : (l ++ l').getD n d = l.getD n d :=
  List.getD_append l l' d n h

/-- The empty trail is well-formed. -/
lemma chainOk_empty (H : List Char → List Char) :
    chainOk H AuditTrail.empty := by
  constructor
  · rfl
  · intro i hi
    cases hi

/-- `add_record` preserves well-formedness. -/
lemma chainOk_add (H : List Char → List Char) (t : AuditTrail)
    (r : List Char) (hok : chainOk H t) :
    chainOk H (t.add_record H r) := by
  obtain ⟨hlen, hhash⟩ := hok
  have hlen' : (t.add_record H r).hash_chain.length =
      (t.add_record H r).audit_records.length := by
    simp [AuditTrail.add_record, hlen]
  refine ⟨hlen', ?_⟩
  intro i hi
  have hrecs : (t.add_record H r).audit_records =
      t.audit_records ++ [r] := rfl
  have hchain : (t.add_record H r).hash_chain =
      t.hash_chain ++ [generateHash H t r] := rfl
  have hilen : i < t.audit_records.length + 1 := by
    simpa [hrecs] using hi
  rcases Nat.lt_or_ge i t.audit_records.length with hlt | hge
  · -- old entries are untouched
    have h₁ : (t.add_record H r).hash_chain.getD i [] =
        t.hash_chain.getD i [] := by
      rw [hchain]
      exact getD_append_lt _ _ _ i (by rw [hlen]; exact hlt)
    have h₂ : (t.add_record H r).audit_records.getD i [] =
        t.audit_records.getD i [] := by
      rw [hrecs]
      exact getD_append_lt _ _ _ i hlt
    rw [h₁, h₂, hhash i hlt]
    unfold generateHashAtPosition
    by_cases hpos : i > 0
    · rw [if_pos hpos, if_pos hpos, hchain,
        getD_append_lt _ _ _ (i - 1) (by rw [hlen]; omega)]
    · rw [if_neg hpos, if_neg hpos]
  · -- the appended entry
    have hieq : i = t.audit_records.length := by omega
    subst hieq
    have h₁ : (t.add_record H r).hash_chain.getD t.audit_records.length [] =
        generateHash H t r := by
      rw [hchain, ← hlen]
      exact getD_concat_length _ _ _
    have h₂ : (t.add_record H r).audit_records.getD
        t.audit_records.length [] = r := by
      rw [hrecs]
      exact getD_concat_length _ _ _
    rw [h₁, h₂]
    unfold generateHash generateHashAtPosition
    by_cases hz : t.audit_records.length > 0
    · have hne : t.hash_chain.isEmpty = false := by
        rw [List.isEmpty_eq_false]
        intro hnil
        rw [hnil] at hlen
        simp at hlen
        omega
      rw [hne, if_pos hz, hchain, hlen,
        getD_append_lt _ _ _ (t.audit_records.length - 1) (by rw [hlen]; omega)]
      simp
    · have hz' : t.audit_records.length = 0 := by omega
      have hnil : t.hash_chain = [] := by
        rw [← List.length_eq_zero]
        rw [hlen, hz']
      rw [hnil]
      simp [hz']

/-- Records of a bulk append. -/
lemma addRecords_records (H : List Char → List Char) :
    ∀ (rs : List (List Char)) (t : AuditTrail),
      (t.addRecords H rs).audit_records = t.audit_records ++ rs := by
  intro rs
  induction rs with
  | nil => intro t; simp [AuditTrail.addRecords]
  | cons r rest ih =>
      intro t
      show ((t.add_record H r).addRecords H rest).audit_records = _
      rw [ih (t.add_record H r)]
      simp [AuditTrail.add_record]

/-- Bulk append preserves well-formedness. -/
lemma addRecords_chainOk (H : List Char → List Char) :
    ∀ (rs : List (List Char)) (t : AuditTrail), chainOk H t →
      chainOk H (t.addRecords H rs) := by
  intro rs
  induction rs with
  | nil => intro t h; exact h
  | cons r rest ih =>
      intro t h
      exact ih (t.add_record H r) (chainOk_add H t r h)

/-- Every entry of a well-formed trail passes its hash check. -/
lemma chainOk_entryValid (H : List Char → List Char) (t : AuditTrail)
    (hok : chainOk H t) (i : Nat) (hi : i < t.audit_records.length) :
    t.entryValid H i = true := by
  unfold AuditTrail.entryValid
  rw [beq_iff_eq]
  exact (hok.2 i hi).symm

/-- A well-formed trail verifies. -/
lemma chainOk_verify (H : List Char → List Char) (t : AuditTrail)
    (hok : chainOk H t) : t.verify_integrity H = true := by
  unfold AuditTrail.verify_integrity
  rw [List.all_eq_true]
  intro i hi
  exact chainOk_entryValid H t hok i (List.mem_range.mp hi)

/-- After a mutation every untouched entry still passes its check. -/
lemma mutate_entryValid_ne (H : List Char → List Char) (t : AuditTrail)
    (hok : chainOk H t) (i : Nat) (r : List Char) (j : Nat)
    (hj : j ≠ i) (hjlen : j < t.audit_records.length) :
    (t.mutate i r).entryValid H j = true := by
  unfold AuditTrail.entryValid
  have hrec : (t.mutate i r).audit_records.getD j [] =
      t.audit_records.getD j [] := by
    show (t.audit_records.set i r).getD j [] = _
    rw [List.getD_eq_getElem?_getD, List.getElem?_set_ne (fun hc => hj hc.symm),
      ← List.getD_eq_getElem?_getD]
  rw [hrec, beq_iff_eq]
  exact (hok.2 j hjlen).symm

/-- After a mutation that changes the serialized record, the mutated
entry fails its hash check (assuming a collision-free digest). -/
lemma mutate_entryValid_self (H : List Char → List Char)
    (hinj : Function.Injective H) (t : AuditTrail)
    (hok : chainOk H t) (i : Nat) (r : List Char)
    (hi : i < t.audit_records.length)
    (hne : r ≠ t.audit_records.getD i []) :
    (t.mutate i r).entryValid H i = false := by
  unfold AuditTrail.entryValid
  have hrec : (t.mutate i r).audit_records.getD i [] = r := by
    show (t.audit_records.set i r).getD i [] = r
    rw [List.getD_eq_getElem?_getD, List.getElem?_set_self hi]
    rfl
  rw [hrec]
  have hstored : (t.mutate i r).hash_chain.getD i [] =
      generateHashAtPosition H t (t.audit_records.getD i []) i :=
    hok.2 i hi
  cases hv : (generateHashAtPosition H (t.mutate i r) r i ==
      (t.mutate i r).hash_chain.getD i [])
  · rfl
  · exfalso
    rw [beq_iff_eq] at hv
    have hmut : generateHashAtPosition H (t.mutate i r) r i =
        generateHashAtPosition H t r i := rfl
    rw [hmut, hstored] at hv
    unfold generateHashAtPosition at hv
    by_cases hpos : i > 0
    · rw [if_pos hpos, if_pos hpos] at hv
      exact hne (List.append_cancel_right (hinj hv))
    · rw [if_neg hpos, if_neg hpos] at hv
      exact hne (hinj hv)

/-- C4 amended: starting from an empty chain, after any sequence of
sequential `add_record` calls `verify_integrity()` returns `true`; after
an in-place mutation of stored record `i` that changes its serialized
content, `verify_integrity()` returns `false` — but only the mutated
entry fails its check; every other entry, including all later ones, is
checked against the STORED previous hash and still passes.  (`H` is the
content digest, assumed collision-free.) -/
theorem audit_chain_tamper_evidence (H : List Char → List Char)
    (hinj : Function.Injective H) (records : List (List Char))
    (i : Nat) (r : List Char) (hi : i < records.length)
    (hne : r ≠ records.getD i []) :
    (AuditTrail.empty.addRecords H records).verify_integrity H = true ∧
    ((AuditTrail.empty.addRecords H records).mutate i r).verify_integrity
      H = false ∧
    ((AuditTrail.empty.addRecords H records).mutate i r).entryValid H i =
      false ∧
    (∀ j, j ≠ i → j < records.length →
      ((AuditTrail.empty.addRecords H records).mutate i r).entryValid H j =
        true) := by
  have hok : chainOk H (AuditTrail.empty.addRecords H records) :=
    addRecords_chainOk H records AuditTrail.empty (chainOk_empty H)
  have hrecs : (AuditTrail.empty.addRecords H records).audit_records =
      records := by
    rw [addRecords_records H records AuditTrail.empty]
    rfl
  have hi' : i < (AuditTrail.empty.addRecords H records).audit_records.length := by
    rw [hrecs]; exact hi
  have hne' : r ≠ (AuditTrail.empty.addRecords H records).audit_records.getD i [] := by
    rw [hrecs]; exact hne
  have hself := mutate_entryValid_self H hinj _ hok i r hi' hne'
  refine ⟨chainOk_verify H _ hok, ?_, hself, ?_⟩
  · unfold AuditTrail.verify_integrity
    rw [List.all_eq_false]
    refine ⟨i, ?_, ?_⟩
    · rw [List.mem_range]
      show i < ((AuditTrail.empty.addRecords H records).audit_records.set
        i r).length
      rw [List.length_set]
      exact hi'
    · rw [hself]
      exact Bool.false_ne_true
  · intro j hj hjlen
    exact mutate_entryValid_ne H _ hok i r j hj (by rw [hrecs]; exact hjlen)

/-- C4 counterexample to "the edit invalidates that entry and every
later one": with two records and a mutation of the first, verification
fails, yet the LATER entry still passes its individual check, because
`_generate_hash_at_position` reads the stored previous hash rather than
the recomputed one. -/
theorem audit_chain_later_entry_still_valid :
    ((AuditTrail.empty.addRecords id [['a'], ['b']]).mutate 0
        ['c']).verify_integrity id = false ∧
    ((AuditTrail.empty.addRecords id [['a'], ['b']]).mutate 0
        ['c']).entryValid id 1 = true := by
  exact ⟨by decide, by decide⟩

/-- Witness for the amended C4 at a concrete two-record chain with the
identity digest (which is injective). -/
theorem audit_chain_tamper_evidence_witness :
    (AuditTrail.empty.addRecords id [['a'], ['b']]).verify_integrity id =
      true ∧
    ((AuditTrail.empty.addRecords id [['a'], ['b']]).mutate 0
        ['c']).verify_integrity id = false ∧
    ((AuditTrail.empty.addRecords id [['a'], ['b']]).mutate 0
        ['c']).entryValid id 0 = false ∧
    (∀ j, j ≠ 0 → j < ([['a'], ['b']] : List (List Char)).length →
      ((AuditTrail.empty.addRecords id [['a'], ['b']]).mutate 0
          ['c']).entryValid id j = true) :=
  audit_chain_tamper_evidence id Function.injective_id [['a'], ['b']] 0
    ['c'] (by decide) (by decide)

/-! ## C3 — responsibility distribution invariants -/

/-- Lookup after setting the same key. -/
lemma dictGet_set_self {α : Type} (m : List (String × α)) (k : String)
    (v : α) : dictGet (dictSet m k v) k = some v := by
  induction m with
  | nil => simp [dictSet, dictGet]
  | cons kv rest ih =>
      obtain ⟨k₀, v₀⟩ := kv
      by_cases hk : k₀ = k
      · simp [dictSet, hk, dictGet]
      · simp [dictSet, hk, dictGet, ih]

/-- Lookup after setting a different key. -/
lemma dictGet_set_ne {α : Type} (m : List (String × α)) (k k' : String)
    (v : α) (h : k' ≠ k) :
    dictGet (dictSet m k v) k' = dictGet m k' := by
  have h' : ¬ (k = k') := fun hc => h hc.symm
  induction m with
  | nil => simp [dictSet, dictGet, h']
  | cons kv rest ih =>
      obtain ⟨k₀, v₀⟩ := kv
      by_cases hk : k₀ = k
      · simp [dictSet, dictGet, hk, h']
      · simp [dictSet, dictGet, hk, ih]

/-- Keys after a set: the old keys plus the new one. -/
lemma mem_dictKeys_set {α : Type} (m : List (String × α)) (k k' : String)
    (v : α) :
    k' ∈ dictKeys (dictSet m k v) ↔ k' ∈ dictKeys m ∨ k' = k := by
  induction m with
  | nil => simp [dictSet, dictKeys]
  | cons kv rest ih =>
      obtain ⟨k₀, v₀⟩ := kv
      by_cases hk : k₀ = k
      · subst hk
        simp [dictSet, dictKeys]
        tauto
      · simp [dictSet, hk, dictKeys] at ih ⊢
        tauto

/-- Setting preserves key distinctness. -/
lemma dictKeys_set_nodup {α : Type} (m : List (String × α)) (k : String)
    (v : α) (h : (dictKeys m).Nodup) :
    (dictKeys (dictSet m k v)).Nodup := by
  induction m with
  | nil => simp [dictSet, dictKeys]
  | cons kv rest ih =>
      obtain ⟨k₀, v₀⟩ := kv
      simp only [dictKeys, List.map_cons, List.nodup_cons] at h
      by_cases hk : k₀ = k
      · subst hk
        simpa [dictSet, dictKeys, List.nodup_cons] using h
      · have ih' := ih h.2
        simp only [dictSet, if_neg hk, dictKeys, List.map_cons,
          List.nodup_cons]
        refine ⟨?_, ih'⟩
        intro hc
        rcases (mem_dictKeys_set rest k k₀ v).mp hc with hin | heq
        · exact h.1 hin
        · exact hk heq

/-- Under distinct keys, membership coincides with lookup. -/
lemma mem_iff_dictGet {α : Type} (m : List (String × α))
    (h : (dictKeys m).Nodup) (k : String) (v : α) :
    (k, v) ∈ m ↔ dictGet m k = some v := by
  induction m with
  | nil => simp [dictGet]
  | cons kv rest ih =>
      obtain ⟨k₀, v₀⟩ := kv
      simp only [dictKeys, List.map_cons, List.nodup_cons] at h
      constructor
      · intro hmem
        rcases List.mem_cons.mp hmem with heq | hin
        · obtain ⟨rfl, rfl⟩ := Prod.mk.injEq .. ▸ heq
          injection heq with h₁ h₂
          simp [dictGet]
        · have hkr : k ∈ dictKeys rest := by
            simp only [dictKeys]
            exact List.mem_map_of_mem Prod.fst hin
          have hne : k₀ ≠ k := fun hc => h.1 (hc ▸ hkr)
          simp only [dictGet, if_neg hne]
          exact (ih h.2).mp hin
      · intro hget
        simp only [dictGet] at hget
        by_cases hk : k₀ = k
        · rw [if_pos hk] at hget
          injection hget with hv
          exact List.mem_cons.mpr (Or.inl (by rw [← hk, hv]))
        · rw [if_neg hk] at hget
          exact List.mem_cons.mpr (Or.inr ((ih h.2).mpr hget))

/-- Weighted score of the flagged evaluations owned by `o`. -/
def flaggedScore (evals : List PolicyEval) (o : String) : ℚ :=
  ((evals.filter (fun e => e.reason != "" && e.owner == o)).map
    (fun e => e.weight * sevMult e.severity)).sum

/-- Total weighted score of all flagged evaluations. -/
def totalFlagged (evals : List PolicyEval) : ℚ :=
  ((evals.filter (fun e => e.reason != "")).map
    (fun e => e.weight * sevMult e.severity)).sum

/-- Each value accumulated by the distribution loop is the filtered
weighted sum for its key, on top of whatever the accumulator held. -/
lemma foldl_respStep_getD (evals : List PolicyEval) :
    ∀ (acc : List (String × ℚ)) (k : String),
      dictGetD (List.foldl respStep acc evals) k 0 =
        dictGetD acc k 0 + flaggedScore evals k := by
  induction evals with
  | nil => intro acc k; simp [flaggedScore]
  | cons e rest ih =>
      intro acc k
      rw [List.foldl_cons, ih (respStep acc e) k]
      unfold respStep
      by_cases hre : e.reason ≠ ""
      · rw [if_pos hre]
        by_cases hk : k = e.owner
        · rw [hk]
          have hset : dictGetD (dictSet acc e.owner
              (dictGetD acc e.owner 0 + e.weight * sevMult e.severity))
              e.owner 0 =
              dictGetD acc e.owner 0 + e.weight * sevMult e.severity := by
            unfold dictGetD
            rw [dictGet_set_self]
            rfl
          rw [hset]
          have hflag : flaggedScore (e :: rest) e.owner =
              e.weight * sevMult e.severity + flaggedScore rest e.owner := by
            unfold flaggedScore
            rw [List.filter_cons, if_pos (by simp [hre])]
            simp
          rw [hflag]
          ring
        · have hset : dictGetD (dictSet acc e.owner
              (dictGetD acc e.owner 0 + e.weight * sevMult e.severity))
              k 0 = dictGetD acc k 0 := by
            unfold dictGetD
            rw [dictGet_set_ne acc e.owner k _ hk]
          rw [hset]
          have hflag : flaggedScore (e :: rest) k = flaggedScore rest k := by
            unfold flaggedScore
            rw [List.filter_cons, if_neg ?_]
            simp only [Bool.and_eq_true, bne_iff_ne, beq_iff_eq]
            rintro ⟨-, ho⟩
            exact hk ho.symm
          rw [hflag]
      · rw [if_neg hre]
        rw [not_not] at hre
        have hflag : flaggedScore (e :: rest) k = flaggedScore rest k := by
          unfold flaggedScore
          rw [List.filter_cons, if_neg (by simp [hre])]
        rw [hflag]

/-- The keys produced by the distribution loop are exactly the flagged
owners (plus whatever the accumulator holds). -/
lemma foldl_respStep_keys (evals : List PolicyEval) :
    ∀ (acc : List (String × ℚ)) (k : String),
      (k ∈ dictKeys (List.foldl respStep acc evals) ↔
        k ∈ dictKeys acc ∨ ∃ e ∈ evals, e.reason ≠ "" ∧ e.owner = k) := by
  induction evals with
  | nil => intro acc k; simp
  | cons e rest ih =>
      intro acc k
      rw [List.foldl_cons, ih (respStep acc e) k]
      unfold respStep
      by_cases hre : e.reason ≠ ""
      · rw [if_pos hre, mem_dictKeys_set]
        constructor
        · rintro ((hin | heq) | hex)
          · exact Or.inl hin
          · exact Or.inr ⟨e, List.mem_cons_self e rest, hre, heq.symm⟩
          · rcases hex with ⟨e', he', hr', ho'⟩
            exact Or.inr ⟨e', List.mem_cons_of_mem e he', hr', ho'⟩
        · rintro (hin | ⟨e', he', hr', ho'⟩)
          · exact Or.inl (Or.inl hin)
          · rcases List.mem_cons.mp he' with rfl | htail
            · exact Or.inl (Or.inr ho'.symm)
            · exact Or.inr ⟨e', htail, hr', ho'⟩
      · rw [if_neg hre]
        rw [not_not] at hre
        constructor
        · rintro (hin | hex)
          · exact Or.inl hin
          · rcases hex with ⟨e', he', hr', ho'⟩
            exact Or.inr ⟨e', List.mem_cons_of_mem e he', hr', ho'⟩
        · rintro (hin | ⟨e', he', hr', ho'⟩)
          · exact Or.inl hin
          · rcases List.mem_cons.mp he' with rfl | htail
            · exact absurd hre hr'
            · exact Or.inr ⟨e', htail, hr', ho'⟩

/-- The distribution loop preserves key distinctness. -/
lemma foldl_respStep_nodup (evals : List PolicyEval) :
    ∀ acc : List (String × ℚ), (dictKeys acc).Nodup →
      (dictKeys (List.foldl respStep acc evals)).Nodup := by
  induction evals with
  | nil => intro acc h; exact h
  | cons e rest ih =>
      intro acc h
      rw [List.foldl_cons]
      refine ih (respStep acc e) ?_
      unfold respStep
      by_cases hre : e.reason ≠ ""
      · rw [if_pos hre]
        exact dictKeys_set_nodup acc e.owner _ h
      · rw [if_neg hre]
        exact h

/-- Setting a key to its current value plus `w` adds `w` to the total. -/
lemma dictValuesSum_set_add (m : List (String × ℚ)) (k : String) (w : ℚ) :
    dictValuesSum (dictSet m k (dictGetD m k 0 + w)) =
      dictValuesSum m + w := by
  induction m with
  | nil => simp [dictSet, dictValuesSum, dictGetD, dictGet]
  | cons kv rest ih =>
      obtain ⟨k₀, v₀⟩ := kv
      by_cases hk : k₀ = k
      · simp only [dictSet, if_pos hk, dictValuesSum, List.map_cons,
          List.sum_cons, dictGetD, dictGet, if_pos hk, Option.getD_some]
        ring
      · simp only [dictSet, if_neg hk, dictValuesSum, List.map_cons,
          List.sum_cons, dictGetD, dictGet, if_neg hk]
        show v₀ + dictValuesSum (dictSet rest k (dictGetD rest k 0 + w)) = _
        rw [ih]
        show v₀ + (dictValuesSum rest + w) = v₀ + dictValuesSum rest + w
        ring

/-- The distribution loop's total is the total flagged score. -/
lemma foldl_respStep_sum (evals : List PolicyEval) :
    ∀ acc : List (String × ℚ),
      dictValuesSum (List.foldl respStep acc evals) =
        dictValuesSum acc + totalFlagged evals := by
  induction evals with
  | nil => intro acc; simp [totalFlagged]
  | cons e rest ih =>
      intro acc
      rw [List.foldl_cons, ih (respStep acc e)]
      unfold respStep
      by_cases hre : e.reason ≠ ""
      · rw [if_pos hre, dictValuesSum_set_add]
        have hflag : totalFlagged (e :: rest) =
            e.weight * sevMult e.severity + totalFlagged rest := by
          unfold totalFlagged
          rw [List.filter_cons, if_pos (by simp [hre])]
          simp
        rw [hflag]
        ring
      · rw [if_neg hre]
        rw [not_not] at hre
        have hflag : totalFlagged (e :: rest) = totalFlagged rest := by
          unfold totalFlagged
          rw [List.filter_cons, if_neg (by simp [hre])]
        rw [hflag]

/-- If nothing is flagged, the loop is the identity. -/
lemma foldl_respStep_clean (evals : List PolicyEval)
    (h : ∀ e ∈ evals, e.reason = "") :
    ∀ acc : List (String × ℚ), List.foldl respStep acc evals = acc := by
  induction evals with
  | nil => intro acc; rfl
  | cons e rest ih =>
      intro acc
      rw [List.foldl_cons]
      have he : e.reason = "" := h e (List.mem_cons_self e rest)
      have hstep : respStep acc e = acc := by
        unfold respStep
        rw [if_neg (by rw [not_not]; exact he)]
      rw [hstep]
      exact ih (fun e' he' => h e' (List.mem_cons_of_mem e he')) acc

/-- The severity multiplier is always positive (default `1.0`). -/
lemma sevMult_pos (s : String) : 0 < sevMult s := by
  unfold sevMult
  split_ifs <;> norm_num

/-- The total flagged score is non-negative for non-negative weights. -/
lemma totalFlagged_nonneg (evals : List PolicyEval)
    (hw : ∀ e ∈ evals, 0 ≤ e.weight) : 0 ≤ totalFlagged evals := by
  apply List.sum_nonneg
  intro x hx
  rcases List.mem_map.mp hx with ⟨e, he, rfl⟩
  exact mul_nonneg (hw e (List.mem_filter.mp he).1)
    (le_of_lt (sevMult_pos _))

/-- A flagged owner's score is non-negative for non-negative weights. -/
lemma flaggedScore_nonneg (evals : List PolicyEval) (o : String)
    (hw : ∀ e ∈ evals, 0 ≤ e.weight) : 0 ≤ flaggedScore evals o := by
  apply List.sum_nonneg
  intro x hx
  rcases List.mem_map.mp hx with ⟨e, he, rfl⟩
  exact mul_nonneg (hw e (List.mem_filter.mp he).1)
    (le_of_lt (sevMult_pos _))

/-- Lookup commutes with normalizing every value. -/
lemma dictGet_map_div (m : List (String × ℚ)) (c : ℚ) (k : String) :
    dictGet (m.map (fun kv => (kv.1, kv.2 / c))) k =
      (dictGet m k).map (fun v => v / c) := by
  induction m with
  | nil => rfl
  | cons kv rest ih =>
      obtain ⟨k₀, v₀⟩ := kv
      by_cases hk : k₀ = k
      · simp [dictGet, hk]
      · simp [dictGet, hk, ih]

/-- The total of a normalized dict is the normalized total. -/
lemma dictValuesSum_map_div (m : List (String × ℚ)) (c : ℚ) :
    dictValuesSum (m.map (fun kv => (kv.1, kv.2 / c))) =
      dictValuesSum m / c := by
  induction m with
  | nil => simp [dictValuesSum]
  | cons kv rest ih =>
      simp only [List.map_cons, dictValuesSum, List.sum_cons] at ih ⊢
      rw [ih, add_div]

/-- Full behavioral specification of `_distribute_responsibility` on the
success path: values are non-negative, the map sums to exactly `1`, the
all-clean case yields the `Operations` default, and each flagged owner's
share is its accumulated weighted score over the total. -/
lemma distribute_spec (evals : List PolicyEval) (m : List (String × ℚ))
    (hw : ∀ e ∈ evals, 0 ≤ e.weight)
    (h : distributeResponsibility evals = some m) :
    (∀ kv ∈ m, 0 ≤ kv.2) ∧
    dictValuesSum m = 1 ∧
    ((∀ e ∈ evals, e.reason = "") → m = [("Operations", 1)]) ∧
    (∀ o, (∃ e ∈ evals, e.reason ≠ "" ∧ e.owner = o) →
      dictGet m o = some (flaggedScore evals o / totalFlagged evals)) := by
  simp only [distributeResponsibility] at h
  by_cases hempty : (List.foldl respStep [] evals).isEmpty = true
  · rw [if_pos hempty] at h
    obtain rfl : [("Operations", (1 : ℚ))] = m := Option.some.inj h
    have hnil : List.foldl respStep [] evals = [] :=
      List.isEmpty_iff.mp hempty
    refine ⟨?_, by simp [dictValuesSum], fun _ => rfl, ?_⟩
    · intro kv hkv
      rcases List.mem_singleton.mp hkv with rfl
      norm_num
    · rintro o ⟨e, he, hr, ho⟩
      have hkey : o ∈ dictKeys (List.foldl respStep [] evals) :=
        (foldl_respStep_keys evals [] o).mpr (Or.inr ⟨e, he, hr, ho⟩)
      rw [hnil] at hkey
      cases hkey
  · rw [if_neg hempty] at h
    have hne : List.foldl respStep [] evals ≠ [] := by
      intro hc
      exact hempty (by rw [hc]; rfl)
    have hnodup : (dictKeys (List.foldl respStep [] evals)).Nodup :=
      foldl_respStep_nodup evals [] (by simp [dictKeys])
    have hvals : ∀ kv ∈ List.foldl respStep [] evals,
        kv.2 = flaggedScore evals kv.1 := by
      rintro ⟨k, v⟩ hkv
      have hget : dictGet (List.foldl respStep [] evals) k = some v :=
        (mem_iff_dictGet _ hnodup k v).mp hkv
      have hgetD := foldl_respStep_getD evals [] k
      unfold dictGetD at hgetD
      rw [hget] at hgetD
      simpa [dictGet] using hgetD
    have hsum : dictValuesSum (List.foldl respStep [] evals) =
        totalFlagged evals := by
      have := foldl_respStep_sum evals []
      simpa [dictValuesSum] using this
    by_cases htot : dictValuesSum (List.foldl respStep [] evals) = 0
    · rw [if_pos htot] at h
      cases h
    · rw [if_neg htot] at h
      obtain rfl :
          (List.foldl respStep [] evals).map
            (fun kv => (kv.1, kv.2 /
              dictValuesSum (List.foldl respStep [] evals))) = m :=
        Option.some.inj h
      have htot_nonneg : 0 ≤ dictValuesSum (List.foldl respStep [] evals) := by
        rw [hsum]
        exact totalFlagged_nonneg evals hw
      refine ⟨?_, ?_, ?_, ?_⟩
      · intro kv hkv
        rcases List.mem_map.mp hkv with ⟨kv₀, hkv₀, rfl⟩
        have hval := hvals kv₀ hkv₀
        exact div_nonneg (hval ▸ flaggedScore_nonneg evals kv₀.1 hw)
          htot_nonneg
      · rw [dictValuesSum_map_div]
        exact div_self htot
      · intro hclean
        exact absurd (foldl_respStep_clean evals hclean []) hne
      · rintro o ⟨e, he, hr, ho⟩
        have hkey : o ∈ dictKeys (List.foldl respStep [] evals) :=
          (foldl_respStep_keys evals [] o).mpr (Or.inr ⟨e, he, hr, ho⟩)
        rcases List.mem_map.mp hkey with ⟨kv, hkv, hfst⟩
        have hget : dictGet (List.foldl respStep [] evals) o = some kv.2 := by
          have : (o, kv.2) ∈ List.foldl respStep [] evals := by
            have hkv' : kv = (o, kv.2) := by
              obtain ⟨k₀, v₀⟩ := kv
              simp at hfst
              rw [hfst]
            rw [← hkv']
            exact hkv
          exact (mem_iff_dictGet _ hnodup o kv.2).mp this
        rw [dictGet_map_div, hget]
        have hval : kv.2 = flaggedScore evals o := by
          have := hvals kv hkv
          rw [hfst] at this
          exact this
        show some (kv.2 / dictValuesSum (List.foldl respStep [] evals)) =
          some (flaggedScore evals o / totalFlagged evals)
        rw [hval, hsum]

/-- The evaluator copies the policy's weight into the evaluation. -/
lemma evaluatePolicy_weight (policy : Policy)
    (signals : List (String × ℚ)) :
    (evaluatePolicy policy signals).weight = policy.weight := by
  unfold evaluatePolicy
  cases dictGet signals policy.signal
  · rfl
  · dsimp only
    split <;> rfl

/-- C3: every record produced by `evaluate` (with non-negative policy
weights, as the data model requires) has a responsibility map whose
values are all ≥ 0 and sum to exactly 1 (hence within `[0.99, 1.01]`);
when no evaluation is flagged the map is exactly
`{"Operations": 1.0}`, and otherwise each flagged owner's share is its
accumulated `weight × severity-multiplier` score divided by the total. -/
theorem responsibility_distribution_invariants (core : GovernanceCore)
    (prompt output : String) (signals : List (String × ℚ))
    (evidences : List Evidence) (did : Option String)
    (md : List (String × String)) (ts : String) (rtr : RTR)
    (hw : ∀ p ∈ core.policies, 0 ≤ p.weight)
    (h : core.evaluate prompt output signals evidences did md ts =
      some rtr) :
    (∀ kv ∈ rtr.responsibility, 0 ≤ kv.2) ∧
    dictValuesSum rtr.responsibility = 1 ∧
    (99/100 ≤ dictValuesSum rtr.responsibility ∧
      dictValuesSum rtr.responsibility ≤ 101/100) ∧
    ((∀ e ∈ rtr.policies, e.reason = "") →
      rtr.responsibility = [("Operations", 1)]) ∧
    (∀ o, (∃ e ∈ rtr.policies, e.reason ≠ "" ∧ e.owner = o) →
      dictGet rtr.responsibility o =
        some (flaggedScore rtr.policies o / totalFlagged rtr.policies)) := by
  simp only [GovernanceCore.evaluate] at h
  have hwe : ∀ e ∈ core.policies.map (fun p => evaluatePolicy p signals),
      0 ≤ e.weight := by
    intro e he
    rcases List.mem_map.mp he with ⟨p, hp, rfl⟩
    rw [evaluatePolicy_weight]
    exact hw p hp
  cases hd : distributeResponsibility
      (core.policies.map (fun p => evaluatePolicy p signals)) with
  | none => rw [hd] at h; cases h
  | some mm =>
      rw [hd] at h
      obtain rfl := (Option.some.inj h).symm
      obtain ⟨h₁, h₂, h₃, h₄⟩ := distribute_spec _ mm hwe hd
      refine ⟨h₁, h₂, ⟨?_, ?_⟩, h₃, h₄⟩
      · show (99 : ℚ)/100 ≤ dictValuesSum mm
        rw [h₂]
        norm_num
      · show dictValuesSum mm ≤ (101 : ℚ)/100
        rw [h₂]
        norm_num

def pC3 : Policy :=
  { id := "b1", owner := "Safety", signal := "s", operator := ">",
    threshold := 7/10, severity := "block", weight := 1, description := "" }

def coreC3 : GovernanceCore :=
  { policies := [pC3], actors := ["Safety", "Operations"],
    evaluation_history := [] }

def rtrC3 : RTR :=
  (coreC3.evaluate "p" "o" [] [] (some "d") [] "t").getD rtrFallback

unseal Rat.add Rat.mul Rat.sub Rat.inv in
/-- Witness for C3 on a concrete record with one flagged block policy. -/
theorem responsibility_distribution_invariants_witness :
    (∀ kv ∈ rtrC3.responsibility, 0 ≤ kv.2) ∧
    dictValuesSum rtrC3.responsibility = 1 ∧
    (99/100 ≤ dictValuesSum rtrC3.responsibility ∧
      dictValuesSum rtrC3.responsibility ≤ 101/100) ∧
    ((∀ e ∈ rtrC3.policies, e.reason = "") →
      rtrC3.responsibility = [("Operations", 1)]) ∧
    (∀ o, (∃ e ∈ rtrC3.policies, e.reason ≠ "" ∧ e.owner = o) →
      dictGet rtrC3.responsibility o =
        some (flaggedScore rtrC3.policies o / totalFlagged rtrC3.policies)) :=
  responsibility_distribution_invariants coreC3 "p" "o" [] [] (some "d")
    [] "t" rtrC3 (by decide) (by decide)

/-! ## C10 — the validator rejects the engine's own all-pass records -/

/-- Membership in the deduplication loop. -/
lemma mem_dedupAux (l : List String) :
    ∀ (seen : List String) (x : String),
      x ∈ dedupAux l seen ↔ x ∈ l ∧ x ∉ seen := by
  induction l with
  | nil => intro seen x; simp [dedupAux]
  | cons y rest ih =>
      intro seen x
      unfold dedupAux
      by_cases hy : seen.contains y = true
      · rw [if_pos hy, ih seen x]
        have hymem : y ∈ seen := (contains_iff_mem seen y).mp hy
        constructor
        · rintro ⟨hx, hnx⟩
          exact ⟨List.mem_cons_of_mem y hx, hnx⟩
        · rintro ⟨hx, hnx⟩
          rcases List.mem_cons.mp hx with rfl | htail
          · exact absurd hymem hnx
          · exact ⟨htail, hnx⟩
      · rw [if_neg hy]
        have hynot : y ∉ seen := fun hc =>
          hy ((contains_iff_mem seen y).mpr hc)
        rw [List.mem_cons, ih (y :: seen) x]
        by_cases hxy : x = y
        · subst hxy
          simp [hynot]
        · simp only [List.mem_cons, List.mem_cons]
          constructor
          · rintro (rfl | ⟨hx, hnx⟩)
            · exact absurd rfl hxy
            · refine ⟨Or.inr hx, ?_⟩
              intro hc
              exact hnx (Or.inr hc)
          · rintro ⟨hx | hx, hnx⟩
            · exact absurd hx hxy
            · exact Or.inr ⟨hx, fun hc => hnx (by
                rcases hc with rfl | hc
                · exact absurd rfl hxy
                · exact hc)⟩

/-- Membership survives deduplication. -/
lemma mem_dedupFirst (l : List String) (x : String) :
    x ∈ dedupFirst l ↔ x ∈ l := by
  unfold dedupFirst
  rw [mem_dedupAux l [] x]
  simp

/-- The evaluator copies the policy's owner into the evaluation. -/
lemma evaluatePolicy_owner (policy : Policy)
    (signals : List (String × ℚ)) :
    (evaluatePolicy policy signals).owner = policy.owner := by
  unfold evaluatePolicy
  cases dictGet signals policy.signal
  · rfl
  · dsimp only
    split <;> rfl

/-- If some evaluated owner is missing from the responsibility keys,
`validate` reports `missing_responsibility_for_owners` and fails. -/
lemma validate_missing_owner (r : RTR) (o : String)
    (hpol : o ∈ r.policies.map (fun e => e.owner))
    (hresp : o ∉ dictKeys r.responsibility) :
    (r.validate).1 = false ∧
    ∃ s ∈ (r.validate).2, ∃ rest,
      s = "missing_responsibility_for_owners:" ++ rest := by
  have hne : r.policies ≠ [] := by
    intro hc
    rw [hc] at hpol
    cases hpol
  have hcont : (dictKeys r.responsibility).contains o = false := by
    cases hc : (dictKeys r.responsibility).contains o
    · rfl
    · exact absurd ((contains_iff_mem _ _).mp hc) hresp
  have hmem : o ∈ (dedupFirst (r.policies.map (fun e => e.owner))).filter
      (fun o' => !(dictKeys r.responsibility).contains o') :=
    List.mem_filter.mpr ⟨(mem_dedupFirst _ _).mpr hpol,
      by rw [hcont]; rfl⟩
  have hmiss : (dedupFirst (r.policies.map (fun e => e.owner))).filter
      (fun o' => !(dictKeys r.responsibility).contains o') ≠ [] :=
    List.ne_nil_of_mem hmem
  simp only [RTR.validate, if_pos hne, if_pos hmiss]
  constructor
  · rw [List.isEmpty_eq_false]
    intro hc
    have : ("missing_responsibility_for_owners:" ++
        pyListRepr ((dedupFirst (r.policies.map (fun e => e.owner))).filter
          (fun o' => !(dictKeys r.responsibility).contains o'))) ∈
        ([] : List String) := by
      rw [← hc]
      simp
    cases this
  · refine ⟨"missing_responsibility_for_owners:" ++
      pyListRepr ((dedupFirst (r.policies.map (fun e => e.owner))).filter
        (fun o' => !(dictKeys r.responsibility).contains o')), ?_, ?_⟩
    · simp
    · exact ⟨_, rfl⟩

/-- C10: on the all-pass path `evaluate` assigns the whole
responsibility to `"Operations"`, so whenever some configured policy is
owned by anyone else, `validate()` on the produced record reports a
`missing_responsibility_for_owners` issue and returns `valid = false`:
the validator rejects records the engine itself produces. -/
theorem validator_rejects_clean_records (core : GovernanceCore)
    (prompt output : String) (signals : List (String × ℚ))
    (evidences : List Evidence) (did : Option String)
    (md : List (String × String)) (ts : String) (rtr : RTR)
    (h : core.evaluate prompt output signals evidences did md ts =
      some rtr)
    (hclean : ∀ e ∈ rtr.policies, e.reason = "")
    (howner : ∃ p ∈ core.policies, p.owner ≠ "Operations") :
    (rtr.validate).1 = false ∧
    ∃ s ∈ (rtr.validate).2, ∃ rest,
      s = "missing_responsibility_for_owners:" ++ rest := by
  simp only [GovernanceCore.evaluate] at h
  cases hd : distributeResponsibility
      (core.policies.map (fun p => evaluatePolicy p signals)) with
  | none => rw [hd] at h; cases h
  | some mm =>
      rw [hd] at h
      obtain rfl := (Option.some.inj h).symm
      rcases howner with ⟨p, hp, hpo⟩
      have hcleanevals : ∀ e ∈ core.policies.map
          (fun q => evaluatePolicy q signals), e.reason = "" := hclean
      have hscores : List.foldl respStep []
          (core.policies.map (fun q => evaluatePolicy q signals)) = [] :=
        foldl_respStep_clean _ hcleanevals []
      have hmm : mm = [("Operations", (1 : ℚ))] := by
        have hd' := hd
        simp only [distributeResponsibility, hscores, List.isEmpty_nil,
          if_true] at hd'
        exact (Option.some.inj hd').symm
      apply validate_missing_owner _ p.owner
      · show p.owner ∈ (core.policies.map
          (fun q => evaluatePolicy q signals)).map (fun e => e.owner)
        exact List.mem_map.mpr ⟨evaluatePolicy p signals,
          List.mem_map_of_mem _ hp, evaluatePolicy_owner p signals⟩
      · show p.owner ∉ dictKeys mm
        rw [hmm]
        simp only [dictKeys, List.map_cons, List.map_nil,
          List.mem_singleton]
        exact hpo

def pC10 : Policy :=
  { id := "b2", owner := "Safety", signal := "s", operator := ">",
    threshold := 1/2, severity := "block", weight := 1, description := "" }

def coreC10 : GovernanceCore :=
  { policies := [pC10], actors := ["Safety", "Operations"],
    evaluation_history := [] }

def rtrC10 : RTR :=
  (coreC10.evaluate "p" "o" [("s", 9/10)] [] (some "d") [] "t").getD
    rtrFallback

unseal Rat.add Rat.mul Rat.sub Rat.inv in
/-- Witness for C10 on a concrete all-pass record with owner
`"Safety"`. -/
theorem validator_rejects_clean_records_witness :
    (rtrC10.validate).1 = false ∧
    ∃ s ∈ (rtrC10.validate).2, ∃ rest,
      s = "missing_responsibility_for_owners:" ++ rest :=
  validator_rejects_clean_records coreC10 "p" "o" [("s", 9/10)] []
    (some "d") [] "t" rtrC10 (by decide) (by decide)
    ⟨pC10, List.mem_cons_self pC10 [], by decide⟩

end SRTA
